import Mathlib

/-!
# Verification of the trace-statistics engine of `cache-sim`

This file gives a shallow embedding, in Lean 4, of the trace analysis code in
`src/trace.rs` of the `cache-sim` repository, and proves the specification
claims about it.

The Rust `Trace<I>` is a newtype around `Vec<I>`; we model it as `List I` for
an arbitrary type `I` with decidable equality (the Rust `Item` bound requires
`Eq + Hash`).  `StackDistance` wraps `Vec<Option<usize>>`, modelled as
`List (Option Nat)`.  `HashMap<I, usize>` is modelled as an association list
`List (I × Nat)` with first-match lookup; `Vec<usize>` indexing that may panic
out of bounds is modelled with `Option`-valued updates, so that a reachable
panic would show up as a `none` result.
-/

set_option linter.unusedSectionVars false
set_option linter.unnecessarySimpa false

variable {I : Type} [DecidableEq I]

namespace Trace

/-- Embedding of `Trace::len`: `self.inner.len()`. -/
def len (t : List I) : Nat := t.length

/-- First-match lookup in the association-list model of `HashMap<I, usize>`:
the value stored under key `x`, if any. -/
def hmGet (x : I) : List (I × Nat) → Option Nat
  | [] => none
  | (k, v) :: rest => if k = x then some v else hmGet x rest

/-- One loop iteration of `frequency_histogram`:
`*freqs.entry(i).or_insert(0) += 1` — if the key is present its count is
incremented in place, otherwise the pair `(x, 1)` is appended. -/
def bump (x : I) : List (I × Nat) → List (I × Nat)
  | [] => [(x, 1)]
  | (k, v) :: rest => if k = x then (k, v + 1) :: rest else (k, v) :: bump x rest

/-- Embedding of `Trace::frequency_histogram`: fold the trace through `bump`,
starting from the empty map. -/
def frequency_histogram (t : List I) : List (I × Nat) :=
  t.foldl (fun m i => bump i m) []

/-- Embedding of `stack.iter().position(|n| n == &curr)`: index of the first
element equal to `x`, if any. -/
def positionOf (x : I) : List I → Option Nat
  | [] => none
  | y :: ys => if y = x then some 0 else (positionOf x ys).map (fun n => n + 1)

/-- The loop of `Trace::stack_distances`, with the recency stack as explicit
state.  For each item: look it up in the stack; emit
`position.map(|n| stack.len() - n - 1)` (the stack is right-to-left, the most
recent item at the end); remove the found occurrence; push the item. -/
def stackDistancesGo : List I → List I → List (Option Nat)
  | _, [] => []
  | stack, curr :: rest =>
      let position := positionOf curr stack
      position.map (fun n => stack.length - n - 1) ::
        stackDistancesGo
          ((match position with
            | some p => stack.eraseIdx p
            | none => stack) ++ [curr]) rest

/-- Embedding of `Trace::stack_distances`: run the loop with an empty stack.
(The Rust code preallocates `vec![Some(0); len]` and assigns each slot exactly
once, in order; we emit the assigned values in the same order.) -/
def stack_distances (t : List I) : List (Option Nat) :=
  stackDistancesGo [] t

/-- Embedding of `<Trace as Stat>::update`: ignores the resident set and the
evicted item and pushes `next` onto the recorded sequence. -/
def update (t : List I) (_s : Finset I) (next : I) (_evicted : Option I) : List I :=
  t ++ [next]

end Trace

namespace StackDistance

/-- Embedding of `self.inner.iter().flatten().max()`: the maximum finite
distance in the sequence, if any. -/
def maxFinite : List (Option Nat) → Option Nat
  | [] => none
  | none :: rest => maxFinite rest
  | some n :: rest =>
      match maxFinite rest with
      | none => some n
      | some m => some (Nat.max n m)

/-- Embedding of `freqs[i] += 1`: increments slot `i`, or returns `none` when
`i` is out of bounds (the Rust code would panic there). -/
def setIncr : List Nat → Nat → Option (List Nat)
  | [], _ => none
  | x :: xs, 0 => some ((x + 1) :: xs)
  | x :: xs, n + 1 => (setIncr xs n).map (fun ys => x :: ys)

/-- The loop of `StackDistance::histogram`: each finite distance bumps its
bucket (propagating a possible out-of-bounds panic as `none`), each infinite
distance bumps the infinity counter. -/
def histogramAux : List (Option Nat) → List Nat → Nat → Option (List Nat × Nat)
  | [], freqs, infinities => some (freqs, infinities)
  | none :: rest, freqs, infinities => histogramAux rest freqs (infinities + 1)
  | some i :: rest, freqs, infinities =>
      (setIncr freqs i).bind (fun freqs => histogramAux rest freqs infinities)

/-- Embedding of `StackDistance::histogram`: the bucket vector starts as
`max.map_or_else(Vec::new, |max| vec![0; max + 1])`, then the loop runs. -/
def histogram (sd : List (Option Nat)) : Option (List Nat × Nat) :=
  histogramAux sd
    (match maxFinite sd with
     | none => []
     | some m => List.replicate (m + 1) 0) 0

end StackDistance

namespace TraceSpec

/-- Modelled from the spec: index of the last (most recent) occurrence of `x`
in a list, if any — "the previous access of the same item" inside the prefix
before the current access. -/
def lastOcc (x : I) : List I → Option Nat
  | [] => none
  | y :: ys =>
      match lastOcc x ys with
      | some j => some (j + 1)
      | none => if y = x then some 0 else none

/-- Modelled from the spec: the stack distance of an access of `curr` whose
preceding accesses are `pre` — `none` when there is no prior occurrence,
otherwise the number of distinct items accessed strictly between the previous
occurrence of `curr` (at index `j` of `pre`) and the current access. -/
def specAt (pre : List I) (curr : I) : Option Nat :=
  match lastOcc curr pre with
  | none => none
  | some j => some (pre.drop (j + 1)).toFinset.card

/-- The spec-side stack-distance sequence: position `i` of `rest` gets the
spec distance with respect to everything before it (`pre` plus the earlier
part of `rest`). -/
def specGo (pre : List I) : List I → List (Option Nat)
  | [] => []
  | curr :: rest => specAt pre curr :: specGo (pre ++ [curr]) rest

end TraceSpec

-- Sanity checks against the doctests and unit tests of `trace.rs`.
example : Trace.stack_distances [0, 0, 1, 0, 3, 0, 1] =
    [none, some 0, none, some 1, none, some 1, some 2] := by decide
example : Trace.stack_distances [1, 2, 3] = [none, none, none] := by decide
example : Trace.stack_distances [1, 1, 1] = [none, some 0, some 0] := by decide
example : Trace.stack_distances [1, 2, 1, 1, 1] =
    [none, none, some 1, some 0, some 0] := by decide
example : Trace.stack_distances [1, 2, 3, 1] = [none, none, none, some 2] := by decide
example : StackDistance.histogram (Trace.stack_distances [0, 0, 1, 0, 3, 0, 1]) =
    some ([1, 2, 1], 3) := by decide
example : StackDistance.histogram (Trace.stack_distances [1, 2, 3]) = some ([], 3) := by
  decide
example : StackDistance.histogram (Trace.stack_distances [1, 1, 1]) = some ([2], 1) := by
  decide
example : StackDistance.histogram (Trace.stack_distances [1, 2, 1, 1, 1]) =
    some ([2, 1], 2) := by decide
example : StackDistance.histogram (Trace.stack_distances [1, 2, 3, 1]) =
    some ([0, 0, 1], 3) := by decide
example : Trace.hmGet 0 (Trace.frequency_histogram [0, 0, 1, 0, 3, 1]) = some 3 := by
  decide
example : Trace.hmGet 1 (Trace.frequency_histogram [0, 0, 1, 0, 3, 1]) = some 2 := by
  decide
example : Trace.hmGet 2 (Trace.frequency_histogram [0, 0, 1, 0, 3, 1]) = none := by
  decide
example : TraceSpec.specGo [] [0, 0, 1, 0, 3, 0, 1] =
    [none, some 0, none, some 1, none, some 1, some 2] := by decide

/-! ## Helper lemmas: `positionOf`, `eraseIdx`, `dedup`, `lastOcc` -/

theorem positionOf_eq_none {x : I} {l : List I} :
    Trace.positionOf x l = none ↔ x ∉ l := by
  induction l with
  | nil => simp [Trace.positionOf]
  | cons y ys ih =>
    by_cases h : y = x
    · simp [Trace.positionOf, h]
    · have hmap : Trace.positionOf x (y :: ys) = none ↔ Trace.positionOf x ys = none := by
        rw [Trace.positionOf, if_neg h]
        cases Trace.positionOf x ys <;> simp
      rw [hmap, ih, List.mem_cons, not_or]
      exact ⟨fun hys => ⟨fun hxy => h hxy.symm, hys⟩, fun hc => hc.2⟩

theorem positionOf_append_cons (x : I) (P S : List I) (hP : x ∉ P) :
    Trace.positionOf x (P ++ x :: S) = some P.length := by
  induction P with
  | nil => simp [Trace.positionOf]
  | cons p ps ih =>
    have hpx : p ≠ x := fun h => hP (by simp [h])
    have hps : x ∉ ps := fun h => hP (by simp [h])
    simp [Trace.positionOf, hpx, ih hps]

theorem eraseIdx_append_cons (x : I) (P S : List I) :
    (P ++ x :: S).eraseIdx P.length = P ++ S := by
  induction P with
  | nil => simp
  | cons p ps ih => simp [List.eraseIdx, ih]

theorem dedup_append_singleton (l : List I) (a : I) :
    (l ++ [a]).dedup = l.dedup.erase a ++ [a] := by
  induction l with
  | nil => simp
  | cons x xs ih =>
    by_cases hx : x ∈ xs
    · have hx' : x ∈ xs ++ [a] := by simp [hx]
      simp [List.dedup_cons_of_mem hx, List.dedup_cons_of_mem hx', ih]
    · by_cases hxa : x = a
      · subst hxa
        have hx' : x ∈ xs ++ [x] := by simp
        have hnd : x ∉ xs.dedup := by simpa using hx
        simp [List.dedup_cons_of_mem hx', List.dedup_cons_of_not_mem hx, ih,
          List.erase_of_not_mem hnd]
      · have hx' : x ∉ xs ++ [a] := by simp [hx, hxa]
        simp [List.dedup_cons_of_not_mem hx, List.dedup_cons_of_not_mem hx', ih,
          List.erase_cons_tail, hxa]

theorem dedup_middle {x : I} {B : List I} (A : List I) (hB : x ∉ B) :
    ∃ P, (A ++ x :: B).dedup = P ++ x :: B.dedup ∧ x ∉ P := by
  induction A with
  | nil => exact ⟨[], by simp [List.dedup_cons_of_not_mem hB], by simp⟩
  | cons a A' ih =>
    obtain ⟨P', hP', hxP'⟩ := ih
    by_cases ha : a ∈ A' ++ x :: B
    · exact ⟨P', by simpa [List.dedup_cons_of_mem ha] using hP', hxP'⟩
    · refine ⟨a :: P', ?_, ?_⟩
      · simpa [List.dedup_cons_of_not_mem ha, hP']
      · have hax : x ≠ a := fun h => ha (by simp [← h])
        simp [hxP', hax]

theorem lastOcc_eq_none {x : I} {l : List I} :
    TraceSpec.lastOcc x l = none ↔ x ∉ l := by
  induction l with
  | nil => simp [TraceSpec.lastOcc]
  | cons y ys ih =>
    rw [TraceSpec.lastOcc]
    rcases h : TraceSpec.lastOcc x ys with _ | j
    · have hys : x ∉ ys := ih.mp h
      by_cases hyx : y = x
      · simp [hyx, hys]
      · rw [if_neg hyx]
        constructor
        · intro _
          rw [List.mem_cons, not_or]
          exact ⟨fun hxy => hyx hxy.symm, hys⟩
        · intro _
          rfl
    · have hys : x ∈ ys := by
        by_contra hc
        rw [ih.mpr hc] at h
        exact Option.noConfusion h
      simp [hys]

theorem lastOcc_decomp {x : I} {l : List I} {j : Nat}
    (h : TraceSpec.lastOcc x l = some j) :
    l = l.take j ++ x :: l.drop (j + 1) ∧ x ∉ l.drop (j + 1) ∧
      (l.take j).length = j := by
  induction l generalizing j with
  | nil => exact absurd h (by simp [TraceSpec.lastOcc])
  | cons y ys ih =>
    rw [TraceSpec.lastOcc] at h
    rcases h' : TraceSpec.lastOcc x ys with _ | j'
    · rw [h'] at h
      by_cases hyx : y = x
      · rw [if_pos hyx] at h
        obtain rfl : j = 0 := by injection h with h; omega
        have hys : x ∉ ys := lastOcc_eq_none.mp h'
        simp [hyx, hys]
      · rw [if_neg hyx] at h
        exact Option.noConfusion h
    · rw [h'] at h
      obtain rfl : j = j' + 1 := by injection h with h; omega
      obtain ⟨hdec, hnot, hlen⟩ := ih h'
      refine ⟨?_, hnot, by simpa using hlen⟩
      calc y :: ys = y :: (ys.take j' ++ x :: ys.drop (j' + 1)) := by rw [← hdec]
        _ = (y :: ys).take (j' + 1) ++ x :: (y :: ys).drop (j' + 2) := by simp

/-! ## The recency stack computes the spec-side distances

The loop invariant: after processing the prefix `pre`, the stack is exactly
`pre.dedup` — the distinct items of `pre` ordered by last occurrence, the most
recently used at the end.  (Mathlib's `List.dedup` keeps the *last* occurrence
of each element, which is precisely this order.) -/

theorem dedup_snoc_dedup (pre : List I) (curr : I) :
    (pre ++ [curr]).dedup = pre.dedup.erase curr ++ [curr] :=
  dedup_append_singleton pre curr

theorem stackGo_eq_specGo :
    ∀ (rest pre : List I),
      Trace.stackDistancesGo pre.dedup rest = TraceSpec.specGo pre rest := by
  intro rest
  induction rest with
  | nil => intro pre; rfl
  | cons curr rest ih =>
    intro pre
    by_cases hc : curr ∈ pre
    · rcases hj : TraceSpec.lastOcc curr pre with _ | j
      · exact absurd hc (lastOcc_eq_none.mp hj)
      · obtain ⟨hdec, hnotin, hlen⟩ := lastOcc_decomp hj
        obtain ⟨P, hP, hxP⟩ := dedup_middle (x := curr) (B := pre.drop (j + 1))
          (pre.take j) hnotin
        have hpre : pre.dedup = P ++ curr :: (pre.drop (j + 1)).dedup := by
          conv_lhs => rw [hdec]
          exact hP
        have hpos : Trace.positionOf curr pre.dedup = some P.length := by
          rw [hpre]; exact positionOf_append_cons curr P _ hxP
        have herase : pre.dedup.eraseIdx P.length = P ++ (pre.drop (j + 1)).dedup := by
          rw [hpre]; exact eraseIdx_append_cons curr P _
        have hnew : pre.dedup.eraseIdx P.length ++ [curr] = (pre ++ [curr]).dedup := by
          rw [herase, dedup_snoc_dedup, hpre, List.erase_append_right _ hxP,
            List.erase_cons_head]
        have hdist : pre.dedup.length - P.length - 1 =
            (pre.drop (j + 1)).toFinset.card := by
          rw [hpre, List.card_toFinset]
          simp only [List.length_append, List.length_cons]
          omega
        rw [Trace.stackDistancesGo, TraceSpec.specGo]
        simp only [hpos, Option.map_some', hnew, ih (pre ++ [curr]),
          TraceSpec.specAt, hj, hdist]
    · have hncd : curr ∉ pre.dedup := fun h => hc (List.mem_dedup.mp h)
      have hpos : Trace.positionOf curr pre.dedup = none := positionOf_eq_none.mpr hncd
      have hnew : pre.dedup ++ [curr] = (pre ++ [curr]).dedup := by
        rw [dedup_snoc_dedup, List.erase_of_not_mem hncd]
      have hj : TraceSpec.lastOcc curr pre = none := lastOcc_eq_none.mpr hc
      rw [Trace.stackDistancesGo, TraceSpec.specGo]
      simp only [hpos, Option.map_none', hnew, ih (pre ++ [curr]),
        TraceSpec.specAt, hj]

theorem stack_distances_eq_specGo (t : List I) :
    Trace.stack_distances t = TraceSpec.specGo [] t := by
  have h := stackGo_eq_specGo t []
  simpa [Trace.stack_distances] using h

/-! ## Length, indexing and infinity-count of the distance sequence -/

theorem stackDistancesGo_length :
    ∀ (rest stack : List I), (Trace.stackDistancesGo stack rest).length = rest.length := by
  intro rest
  induction rest with
  | nil => intro stack; rfl
  | cons curr rest ih =>
    intro stack
    rw [Trace.stackDistancesGo]
    simp [ih]

theorem length_stack_distances (t : List I) :
    (Trace.stack_distances t).length = t.length :=
  stackDistancesGo_length t []

theorem specGo_getElem (rest : List I) :
    ∀ (pre : List I) (i : Nat) (h : i < rest.length),
      (TraceSpec.specGo pre rest)[i]? =
        some (TraceSpec.specAt (pre ++ rest.take i) (rest.get ⟨i, h⟩)) := by
  induction rest with
  | nil => intro pre i h; exact absurd h (by simp)
  | cons curr rest ih =>
    intro pre i h
    cases i with
    | zero => simp [TraceSpec.specGo]
    | succ i =>
      have h' : i < rest.length := by simpa using h
      rw [TraceSpec.specGo]
      simp only [List.getElem?_cons_succ]
      rw [ih (pre ++ [curr]) i h']
      simp [List.append_assoc]

theorem specAt_eq_none_iff (pre : List I) (curr : I) :
    TraceSpec.specAt pre curr = none ↔ curr ∉ pre := by
  rcases h : TraceSpec.lastOcc curr pre with _ | j
  · simp [TraceSpec.specAt, h, lastOcc_eq_none.mp h]
  · simp only [TraceSpec.specAt, h]
    exact ⟨fun hc => Option.noConfusion hc,
           fun hc => by rw [lastOcc_eq_none.mpr hc] at h; exact Option.noConfusion h⟩

theorem specGo_countP_none :
    ∀ (rest pre : List I),
      (TraceSpec.specGo pre rest).countP (fun o => o.isNone) + pre.toFinset.card =
        (pre ++ rest).toFinset.card := by
  intro rest
  induction rest with
  | nil => intro pre; simp [TraceSpec.specGo]
  | cons curr rest ih =>
    intro pre
    have hassoc : pre ++ curr :: rest = (pre ++ [curr]) ++ rest := by simp
    have hins : (pre ++ [curr]).toFinset = insert curr pre.toFinset := by
      ext a; simp [or_comm]
    rw [TraceSpec.specGo, List.countP_cons, hassoc, ← ih (pre ++ [curr])]
    by_cases hc : curr ∈ pre
    · have hne : TraceSpec.specAt pre curr ≠ none :=
        fun h => (specAt_eq_none_iff pre curr).mp h hc
      obtain ⟨v, hv⟩ := Option.ne_none_iff_exists'.mp hne
      have hcard : (pre ++ [curr]).toFinset.card = pre.toFinset.card := by
        rw [hins, Finset.card_insert_of_mem (by simpa using hc)]
      rw [hv, hcard]
      simp
    · have hnone : TraceSpec.specAt pre curr = none :=
        (specAt_eq_none_iff pre curr).mpr hc
      have hcard : (pre ++ [curr]).toFinset.card = pre.toFinset.card + 1 := by
        rw [hins, Finset.card_insert_of_not_mem (by simpa using hc)]
      rw [hnone, hcard]
      simp only [Option.isNone_none, if_true]
      omega

/-! ## Frequency histogram lemmas -/

theorem hmGet_bump_same (x : I) (m : List (I × Nat)) :
    Trace.hmGet x (Trace.bump x m) = some ((Trace.hmGet x m).getD 0 + 1) := by
  induction m with
  | nil => simp [Trace.bump, Trace.hmGet]
  | cons kv rest ih =>
    obtain ⟨k, v⟩ := kv
    by_cases h : k = x
    · simp [Trace.bump, Trace.hmGet, h]
    · simp [Trace.bump, Trace.hmGet, h, ih]

theorem hmGet_bump_other {x y : I} (h : y ≠ x) (m : List (I × Nat)) :
    Trace.hmGet x (Trace.bump y m) = Trace.hmGet x m := by
  induction m with
  | nil => simp [Trace.bump, Trace.hmGet, h]
  | cons kv rest ih =>
    obtain ⟨k, v⟩ := kv
    by_cases hk : k = y
    · subst hk
      simp [Trace.bump, Trace.hmGet, h]
    · have hxy : ¬x = y := fun e => h e.symm
      by_cases hx : k = x <;> simp [Trace.bump, Trace.hmGet, hk, hx, hxy, ih]

theorem hmGet_foldl :
    ∀ (t : List I) (m : List (I × Nat)) (x : I),
      Trace.hmGet x (t.foldl (fun m i => Trace.bump i m) m) =
        if x ∈ t then some ((Trace.hmGet x m).getD 0 + t.count x)
        else Trace.hmGet x m := by
  intro t
  induction t with
  | nil => intro m x; simp
  | cons y t ih =>
    intro m x
    rw [List.foldl_cons, ih (Trace.bump y m) x]
    by_cases hxy : x = y
    · subst hxy
      rw [hmGet_bump_same]
      by_cases hxt : x ∈ t
      · simp only [hxt, if_true, List.mem_cons, true_or, Option.getD_some,
          List.count_cons]
        simp
        omega
      · simp only [hxt, if_false, List.mem_cons, true_or, if_true,
          List.count_cons, hmGet_bump_same]
        simp [List.count_eq_zero_of_not_mem hxt]
    · rw [hmGet_bump_other (fun h => hxy h.symm)]
      have hmem : (x ∈ y :: t) ↔ x ∈ t := by simp [hxy]
      by_cases hxt : x ∈ t
      · simp [hmem, hxt, List.count_cons, hxy]
      · simp [hmem, hxt]

theorem bump_map_snd_sum (x : I) (m : List (I × Nat)) :
    ((Trace.bump x m).map Prod.snd).sum = (m.map Prod.snd).sum + 1 := by
  induction m with
  | nil => simp [Trace.bump]
  | cons kv rest ih =>
    obtain ⟨k, v⟩ := kv
    by_cases h : k = x
    · simp [Trace.bump, h]
      omega
    · simp [Trace.bump, h, ih]
      omega

theorem foldl_bump_sum :
    ∀ (t : List I) (m : List (I × Nat)),
      ((t.foldl (fun m i => Trace.bump i m) m).map Prod.snd).sum =
        (m.map Prod.snd).sum + t.length := by
  intro t
  induction t with
  | nil => intro m; simp
  | cons y t ih =>
    intro m
    rw [List.foldl_cons, ih (Trace.bump y m), bump_map_snd_sum]
    simp
    omega

/-! ## Stack-distance histogram lemmas -/

theorem setIncr_spec :
    ∀ (l : List Nat) (i : Nat) (l' : List Nat), StackDistance.setIncr l i = some l' →
      l'.length = l.length ∧ l'.sum = l.sum + 1 ∧
        ∀ d, l'.getD d 0 = l.getD d 0 + if d = i then 1 else 0 := by
  intro l
  induction l with
  | nil => intro i l' h; exact Option.noConfusion h
  | cons x xs ih =>
    intro i l' h
    cases i with
    | zero =>
      obtain rfl : l' = (x + 1) :: xs := by
        rw [StackDistance.setIncr] at h
        injection h with h
        exact h.symm
      refine ⟨by simp, by simp; omega, ?_⟩
      intro d
      cases d with
      | zero => simp
      | succ d => simp
    | succ i =>
      rw [StackDistance.setIncr] at h
      rcases hs : StackDistance.setIncr xs i with _ | ys
      · rw [hs] at h; exact Option.noConfusion h
      · rw [hs] at h
        obtain rfl : l' = x :: ys := by injection h with h; exact h.symm
        obtain ⟨h1, h2, h3⟩ := ih i ys hs
        refine ⟨by simp [h1], by simp [h2]; omega, ?_⟩
        intro d
        cases d with
        | zero => simp
        | succ d =>
          have := h3 d
          simpa using this

theorem setIncr_isSome (l : List Nat) (i : Nat) (h : i < l.length) :
    ∃ l', StackDistance.setIncr l i = some l' := by
  induction l generalizing i with
  | nil => exact absurd h (by simp)
  | cons x xs ih =>
    cases i with
    | zero => exact ⟨(x + 1) :: xs, rfl⟩
    | succ i =>
      obtain ⟨ys, hys⟩ := ih i (by simpa using h)
      exact ⟨x :: ys, by rw [StackDistance.setIncr, hys]; rfl⟩

theorem maxFinite_eq_none :
    ∀ (sd : List (Option Nat)), StackDistance.maxFinite sd = none →
      ∀ i, some i ∉ sd := by
  intro sd
  induction sd with
  | nil => intro _ i; simp
  | cons o rest ih =>
    intro h i
    cases o with
    | none =>
      rw [StackDistance.maxFinite] at h
      simp only [List.mem_cons]
      rintro (hc | hc)
      · exact Option.noConfusion hc
      · exact ih h i hc
    | some n =>
      rw [StackDistance.maxFinite] at h
      rcases hr : StackDistance.maxFinite rest with _ | m <;> rw [hr] at h <;>
        exact Option.noConfusion h

theorem maxFinite_spec :
    ∀ (sd : List (Option Nat)) (m : Nat), StackDistance.maxFinite sd = some m →
      some m ∈ sd ∧ ∀ i, some i ∈ sd → i ≤ m := by
  intro sd
  induction sd with
  | nil => intro m h; exact Option.noConfusion h
  | cons o rest ih =>
    intro m h
    cases o with
    | none =>
      rw [StackDistance.maxFinite] at h
      obtain ⟨h1, h2⟩ := ih m h
      refine ⟨by simp [h1], ?_⟩
      intro i hi
      rcases List.mem_cons.mp hi with hc | hc
      · exact absurd hc.symm (by simp)
      · exact h2 i hc
    | some n =>
      rw [StackDistance.maxFinite] at h
      rcases hr : StackDistance.maxFinite rest with _ | m' <;> rw [hr] at h
      · have hnm : n = m := by injection h
        have hrest := maxFinite_eq_none rest hr
        refine ⟨by simp [hnm], ?_⟩
        intro i hi
        rcases List.mem_cons.mp hi with hc | hc
        · have hin : i = n := by injection hc
          omega
        · exact absurd hc (hrest i)
      · have hm : Nat.max n m' = m := by injection h
        obtain ⟨h1, h2⟩ := ih m' hr
        constructor
        · by_cases hcmp : n ≤ m'
          · have h3 : Nat.max n m' ≤ m' := Nat.max_le.mpr ⟨hcmp, Nat.le_refl m'⟩
            have h4 : m' ≤ Nat.max n m' := Nat.le_max_right n m'
            have hmm : m = m' := by omega
            rw [hmm]
            exact List.mem_cons_of_mem _ h1
          · have h3 : Nat.max n m' ≤ n :=
              Nat.max_le.mpr ⟨Nat.le_refl n, Nat.le_of_lt (Nat.lt_of_not_le hcmp)⟩
            have h4 : n ≤ Nat.max n m' := Nat.le_max_left n m'
            have hmm : m = n := by omega
            rw [hmm]
            exact List.mem_cons_self _ _
        · intro i hi
          rcases List.mem_cons.mp hi with hc | hc
          · have hin : i = n := by injection hc
            calc i = n := hin
              _ ≤ Nat.max n m' := Nat.le_max_left n m'
              _ = m := hm
          · calc i ≤ m' := h2 i hc
              _ ≤ Nat.max n m' := Nat.le_max_right n m'
              _ = m := hm

theorem replicate_zero_getD : ∀ (n d : Nat), (List.replicate n (0 : Nat)).getD d 0 = 0 := by
  intro n
  induction n with
  | zero => intro d; simp
  | succ n ih =>
    intro d
    cases d with
    | zero => simp [List.replicate_succ]
    | succ d => simp [List.replicate_succ, ih d]

theorem replicate_zero_sum : ∀ (n : Nat), (List.replicate n (0 : Nat)).sum = 0 := by
  intro n
  induction n with
  | zero => simp
  | succ n ih => simp [List.replicate_succ, ih]

theorem histogramAux_spec :
    ∀ (rest : List (Option Nat)) (freqs : List Nat) (inf : Nat),
      (∀ i, some i ∈ rest → i < freqs.length) →
      ∃ F N, StackDistance.histogramAux rest freqs inf = some (F, N) ∧
        F.length = freqs.length ∧
        N = inf + rest.countP (fun o => o.isNone) ∧
        F.sum + N = freqs.sum + inf + rest.length ∧
        ∀ d, F.getD d 0 = freqs.getD d 0 + rest.count (some d) := by
  intro rest
  induction rest with
  | nil =>
    intro freqs inf h
    exact ⟨freqs, inf, rfl, rfl, by simp, by simp, by simp⟩
  | cons o rest ih =>
    intro freqs inf h
    cases o with
    | none =>
      obtain ⟨F, N, hrun, hlen, hN, hsum, hbuck⟩ :=
        ih freqs (inf + 1) (fun i hi => h i (by simp [hi]))
      refine ⟨F, N, ?_, hlen, ?_, ?_, ?_⟩
      · rw [StackDistance.histogramAux]
        exact hrun
      · rw [hN, List.countP_cons]
        simp
        omega
      · rw [hsum]
        simp
        omega
      · intro d
        rw [hbuck d, List.count_cons]
        simp
    | some i =>
      have hi : i < freqs.length := h i (by simp)
      obtain ⟨freqs', hset⟩ := setIncr_isSome freqs i hi
      obtain ⟨hlen', hsum', hbuck'⟩ := setIncr_spec freqs i freqs' hset
      obtain ⟨F, N, hrun, hlen, hN, hsum, hbuck⟩ :=
        ih freqs' inf (fun d hd => hlen' ▸ h d (by simp [hd]))
      refine ⟨F, N, ?_, by rw [hlen, hlen'], ?_, ?_, ?_⟩
      · rw [StackDistance.histogramAux, hset]
        exact hrun
      · rw [hN, List.countP_cons]
        simp
      · rw [hsum, hsum']
        simp
        omega
      · intro d
        rw [hbuck d, hbuck' d, List.count_cons]
        by_cases hdi : d = i
        · subst hdi
          simp
          omega
        · simp [hdi, Ne.symm hdi]

theorem histogram_spec (sd : List (Option Nat)) :
    ∃ F N, StackDistance.histogram sd = some (F, N) ∧
      N = sd.countP (fun o => o.isNone) ∧
      F.sum + N = sd.length ∧
      (∀ d, F.getD d 0 = sd.count (some d)) ∧
      F.length =
        (match StackDistance.maxFinite sd with
         | none => 0
         | some m => m + 1) := by
  rcases hmax : StackDistance.maxFinite sd with _ | m
  · have hnone := maxFinite_eq_none sd hmax
    obtain ⟨F, N, hrun, hlen, hN, hsum, hbuck⟩ :=
      histogramAux_spec sd [] 0 (fun i hi => absurd hi (hnone i))
    refine ⟨F, N, ?_, by omega, by simpa using hsum, ?_, by simpa using hlen⟩
    · rw [StackDistance.histogram, hmax]
      exact hrun
    · intro d
      simpa using hbuck d
  · have hbound : ∀ i, some i ∈ sd → i < (List.replicate (m + 1) (0 : Nat)).length := by
      intro i hi
      have := (maxFinite_spec sd m hmax).2 i hi
      simp
      omega
    obtain ⟨F, N, hrun, hlen, hN, hsum, hbuck⟩ := histogramAux_spec sd _ 0 hbound
    refine ⟨F, N, ?_, by omega, ?_, ?_, ?_⟩
    · rw [StackDistance.histogram, hmax]
      exact hrun
    · rw [replicate_zero_sum (m + 1)] at hsum
      omega
    · intro d
      rw [hbuck d, replicate_zero_getD (m + 1) d]
      omega
    · rw [hlen]
      simp

/-! ## Claim theorems -/

/-- C1: for every trace and every access position `i`, the value produced by
`Trace::stack_distances` at index `i` is `none` ("infinite") exactly when
position `i` is the first occurrence of the item, and otherwise is the number
of distinct items accessed strictly between position `i` and the previous
access of the same item (so a first occurrence is infinite and an immediate
repeat gets distance 0). -/
theorem stack_distances_index_correct (t : List I) (i : Nat) (h : i < t.length) :
    (Trace.stack_distances t)[i]? =
      some (TraceSpec.specAt (t.take i) (t.get ⟨i, h⟩)) := by
  rw [stack_distances_eq_specGo, specGo_getElem t [] i h]
  simp

/-- Witness for `stack_distances_index_correct` at the documented example
trace `[0, 0, 1, 0, 3, 0, 1]`, position 3. -/
theorem stack_distances_index_correct_witness :
    3 < ([0, 0, 1, 0, 3, 0, 1] : List Nat).length ∧
      (Trace.stack_distances ([0, 0, 1, 0, 3, 0, 1] : List Nat))[3]? =
        some (TraceSpec.specAt (([0, 0, 1, 0, 3, 0, 1] : List Nat).take 3)
          (([0, 0, 1, 0, 3, 0, 1] : List Nat).get ⟨3, by decide⟩)) :=
  ⟨by decide, stack_distances_index_correct [0, 0, 1, 0, 3, 0, 1] 3 (by decide)⟩

/-- C2: `Trace::frequency_histogram` maps each item occurring in the trace to
its exact occurrence count, and has no entry for an item that does not
occur. -/
theorem frequency_histogram_lookup (t : List I) (x : I) :
    Trace.hmGet x (Trace.frequency_histogram t) =
      if x ∈ t then some (t.count x) else none := by
  rw [Trace.frequency_histogram, hmGet_foldl t [] x]
  simp [Trace.hmGet]

/-- C5: the counts of `Trace::frequency_histogram` sum to `Trace::len`. -/
theorem frequency_histogram_counts_sum (t : List I) :
    ((Trace.frequency_histogram t).map Prod.snd).sum = Trace.len t := by
  rw [Trace.frequency_histogram, foldl_bump_sum t []]
  simp [Trace.len]

/-- C6: the sequence returned by `Trace::stack_distances` has exactly the
length of the trace. -/
theorem stack_distances_same_length (t : List I) :
    (Trace.stack_distances t).length = Trace.len t :=
  length_stack_distances t

/-- C7: the trace-recorder observer's `update` appends the next item to the
recorded sequence, leaves the prior entries unchanged, and does not depend on
the resident set or the evicted item. -/
theorem trace_update_appends (t : List I) (s : Finset I) (x : I) (e : Option I) :
    Trace.update t s x e = t ++ [x] ∧
      (Trace.update t s x e).take t.length = t ∧
      ∀ (s' : Finset I) (e' : Option I), Trace.update t s x e = Trace.update t s' x e' :=
  ⟨rfl, List.take_left t [x], fun _ _ => rfl⟩

/-- C9: the number of infinite (`none`) entries among the stack distances
equals the number of distinct items occurring in the trace. -/
theorem stack_distances_none_count (t : List I) :
    (Trace.stack_distances t).countP (fun o => o.isNone) = t.toFinset.card := by
  have h := specGo_countP_none t []
  rw [stack_distances_eq_specGo]
  simpa using h

/-- C3: when the trace has at least one finite stack distance,
`StackDistance::histogram` returns a bucket vector of length `max + 1` (where
`max` is the maximum finite distance, so the index range is exactly
`[0, max]`), bucket `d` counting the accesses with stack distance `d`, plus a
scalar equal to the number of infinite distances. -/
theorem histogram_buckets_correct (t : List I)
    (h : ∃ d, some d ∈ Trace.stack_distances t) :
    ∃ F N, StackDistance.histogram (Trace.stack_distances t) = some (F, N) ∧
      (∃ m, some m ∈ Trace.stack_distances t ∧
        (∀ d, some d ∈ Trace.stack_distances t → d ≤ m) ∧
        F.length = m + 1) ∧
      (∀ d, F.getD d 0 = (Trace.stack_distances t).count (some d)) ∧
      N = (Trace.stack_distances t).countP (fun o => o.isNone) := by
  obtain ⟨d0, hd0⟩ := h
  obtain ⟨F, N, hrun, hN, hsum, hbuck, hlen⟩ := histogram_spec (Trace.stack_distances t)
  rcases hmax : StackDistance.maxFinite (Trace.stack_distances t) with _ | m
  · exact absurd hd0 (maxFinite_eq_none _ hmax d0)
  · obtain ⟨hmem, hub⟩ := maxFinite_spec _ m hmax
    refine ⟨F, N, hrun, ⟨m, hmem, hub, ?_⟩, hbuck, hN⟩
    rw [hlen, hmax]

/-- Witness for `histogram_buckets_correct` at the trace `[5, 5]`, whose
distance sequence `[none, some 0]` has a finite entry. -/
theorem histogram_buckets_correct_witness :
    (∃ d, some d ∈ Trace.stack_distances ([5, 5] : List Nat)) ∧
      (∃ F N,
        StackDistance.histogram (Trace.stack_distances ([5, 5] : List Nat)) =
          some (F, N) ∧
        (∃ m, some m ∈ Trace.stack_distances ([5, 5] : List Nat) ∧
          (∀ d, some d ∈ Trace.stack_distances ([5, 5] : List Nat) → d ≤ m) ∧
          F.length = m + 1) ∧
        (∀ d, F.getD d 0 = (Trace.stack_distances ([5, 5] : List Nat)).count (some d)) ∧
        N = (Trace.stack_distances ([5, 5] : List Nat)).countP (fun o => o.isNone)) :=
  ⟨⟨0, by decide⟩, histogram_buckets_correct [5, 5] ⟨0, by decide⟩⟩

/-- C4: for the empty trace, the stack-distance histogram is the empty bucket
vector together with an infinity count of zero. -/
theorem histogram_empty_trace :
    StackDistance.histogram (Trace.stack_distances ([] : List I)) = some ([], 0) := rfl

/-- C8: the finite bucket counts plus the infinity count sum to the length of
the trace. -/
theorem histogram_total_count (t : List I) :
    ∃ F N, StackDistance.histogram (Trace.stack_distances t) = some (F, N) ∧
      F.sum + N = Trace.len t := by
  obtain ⟨F, N, hrun, hN, hsum, hbuck, hlen⟩ := histogram_spec (Trace.stack_distances t)
  refine ⟨F, N, hrun, ?_⟩
  rw [hsum, length_stack_distances t]
  rfl

/-- C10: the bucket write in `StackDistance::histogram` is always in range:
every finite distance is at most the maximum finite distance, so the
computation always succeeds — the out-of-bounds panic branch (modelled as
`none`) is unreachable. -/
theorem histogram_never_panics (t : List I) :
    (∀ d, some d ∈ Trace.stack_distances t →
      ∃ m, StackDistance.maxFinite (Trace.stack_distances t) = some m ∧ d ≤ m) ∧
      (StackDistance.histogram (Trace.stack_distances t)).isSome = true := by
  constructor
  · intro d hd
    rcases hmax : StackDistance.maxFinite (Trace.stack_distances t) with _ | m
    · exact absurd hd (maxFinite_eq_none _ hmax d)
    · exact ⟨m, rfl, (maxFinite_spec _ m hmax).2 d hd⟩
  · obtain ⟨F, N, hrun, _⟩ := histogram_spec (Trace.stack_distances t)
    rw [hrun]
    rfl
